import Mathlib

/-!
Verification of the pgvector-cpp distance-kernel engine.

The C++ sources embedded here are `src_cpp/bitutils.cpp` (bit-vector
Hamming and Jaccard kernels, scalar and AVX-512 variants) and
`src_cpp/halfutils.cpp` / `src_cpp/halfutils.hpp` (half-precision codec,
half-vector distance kernels, and the dispatching calculator class).

Modelling conventions:
  * machine integers are `Nat` with an explicit `% 2 ^ 64` at every point
    where the C code can wrap a `uint64_t` accumulator;
  * byte buffers are `List Nat` whose elements are below 256;
  * the `double` returned by the Jaccard kernels is modelled exactly in `ℚ`
    (the quantity `1 - and/or` of two integer counts);
  * the half-vector kernels accumulate in `ℚ`; every individual product or
    squared difference of decoded half values is exactly representable in
    IEEE single precision, and a sum of non-negative floats is zero exactly
    when every term is, so the error conditions proved below coincide with
    the ones evaluated by the C code;
  * fallible kernels return `Except KernelError`; a thrown C++ exception is
    the `.error` branch;
  * null operand pointers are modelled by `Option` on the operand lists.
-/

namespace PgVectorCpp

/-! ### Bit infrastructure

`countBits w x` counts the set bits among the low `w` bits of `x`; it is the
specification-side popcount, structurally recursive on the width so that it
evaluates inside the kernel.
-/

/-- Number of set bits among the `w` low-order bits of `x`. -/
def countBits : Nat → Nat → Nat
  | 0, _ => 0
  | w + 1, x => x % 2 + countBits w (x / 2)

/-- `popcount_u64`, from `bitutils.cpp`: Brian Kernighan's loop
`while (x) { x &= x - 1; count++; }`, embedded as well-founded recursion on
`x` (each step clears the lowest set bit, so `x` strictly decreases). -/
def popcount_u64 (x : Nat) : Nat :=
  if h : x = 0 then 0
  else popcount_u64 (x &&& (x - 1)) + 1
decreasing_by
  exact Nat.lt_of_le_of_lt Nat.and_le_right (Nat.sub_lt (Nat.pos_of_ne_zero h) Nat.one_pos)

/-! ### Bit-vector kernels, from `src_cpp/bitutils.cpp`

Byte buffers are `List Nat` (entries < 256).  The C code walks the buffers
eight bytes at a time through a `uint64_t*` view (little-endian on the
targeted x86), then finishes byte by byte; `bytesToU64` is that
reinterpretation of eight consecutive bytes.  The `uint64_t` accumulators
wrap, hence the `% 2 ^ 64` on every addition.
-/

/-- Little-endian reinterpretation of a byte list as one machine word. -/
def bytesToU64 (l : List Nat) : Nat := l.foldr (fun b acc => b + 256 * acc) 0

/-- The per-byte remainder loop of `hamming_distance_default`
(`while (bytes > 0) { v += popcount_u64(*ax8 ^ *bx8); ... }`). -/
def hammingTail : List Nat → List Nat → Nat → Nat
  | x :: xs, y :: ys, v => hammingTail xs ys ((v + popcount_u64 (x ^^^ y)) % 2 ^ 64)
  | _, _, v => v

/-- `hamming_distance_default` from `bitutils.cpp`: process eight bytes at a
time as `uint64_t` words, then hand the remaining bytes to the per-byte
loop.  `v` is the `distance` seed parameter. -/
def hamming_distance_default : List Nat → List Nat → Nat → Nat
  | a0 :: a1 :: a2 :: a3 :: a4 :: a5 :: a6 :: a7 :: as,
    b0 :: b1 :: b2 :: b3 :: b4 :: b5 :: b6 :: b7 :: bs, v =>
      hamming_distance_default as bs
        ((v + popcount_u64 (bytesToU64 [a0, a1, a2, a3, a4, a5, a6, a7] ^^^
            bytesToU64 [b0, b1, b2, b3, b4, b5, b6, b7])) % 2 ^ 64)
  | a, b, v => hammingTail a b v

/-- The per-byte remainder loop of `jaccard_distance_default`, returning the
final `(and_data, or_data)` accumulator pair. -/
def jaccardTail : List Nat → List Nat → Nat → Nat → Nat × Nat
  | x :: xs, y :: ys, ad, od =>
      jaccardTail xs ys ((ad + popcount_u64 (x &&& y)) % 2 ^ 64)
        ((od + popcount_u64 (x ||| y)) % 2 ^ 64)
  | _, _, ad, od => (ad, od)

/-- The accumulation phase of `jaccard_distance_default`: eight bytes at a
time as `uint64_t` words, then the per-byte loop. -/
def jaccardCounts : List Nat → List Nat → Nat → Nat → Nat × Nat
  | a0 :: a1 :: a2 :: a3 :: a4 :: a5 :: a6 :: a7 :: as,
    b0 :: b1 :: b2 :: b3 :: b4 :: b5 :: b6 :: b7 :: bs, ad, od =>
      jaccardCounts as bs
        ((ad + popcount_u64 (bytesToU64 [a0, a1, a2, a3, a4, a5, a6, a7] &&&
            bytesToU64 [b0, b1, b2, b3, b4, b5, b6, b7])) % 2 ^ 64)
        ((od + popcount_u64 (bytesToU64 [a0, a1, a2, a3, a4, a5, a6, a7] |||
            bytesToU64 [b0, b1, b2, b3, b4, b5, b6, b7])) % 2 ^ 64)
  | a, b, ad, od => jaccardTail a b ad od

/-- The closing computation of both Jaccard kernels:
`if (or_data == 0) return 0.0; return 1.0 - and_data / or_data;`.
The `double` division of the two integer counts is modelled exactly in `ℚ`. -/
def jaccardFinish (ad od : Nat) : ℚ := if od = 0 then 0 else 1 - (ad : ℚ) / (od : ℚ)

/-- `jaccard_distance_default` from `bitutils.cpp`.  `ab` seeds `and_data`;
`aa` and `bb` are accepted for interface symmetry and never read. -/
def jaccard_distance_default (a b : List Nat) (ab aa bb : Nat) : ℚ :=
  let c := jaccardCounts a b ab 0
  jaccardFinish c.1 c.2

/-- Lane `i` of the 512-bit load over a byte buffer: bytes
`8*i .. 8*i+7` viewed as one `uint64_t`. -/
def lane64 (l : List Nat) (i : Nat) : Nat := bytesToU64 ((l.drop (8 * i)).take 8)

/-- The body of the inner `for (int i = 0; i < 8; i++)` loop of the AVX-512
Jaccard kernel: accumulate the popcount of one AND lane and one OR lane. -/
def avxLaneStep (a b : List Nat) (p : Nat × Nat) (i : Nat) : Nat × Nat :=
  ((p.1 + popcount_u64 (lane64 a i &&& lane64 b i)) % 2 ^ 64,
   (p.2 + popcount_u64 (lane64 a i ||| lane64 b i)) % 2 ^ 64)

/-- The loop of `jaccard_distance_avx512_popcount`: process 64 bytes at a
time (eight 64-bit lanes of AND respectively OR, popcounted lane by lane);
when bytes remain, delegate to `jaccard_distance_default`, seeding it with
the accumulated `and_data` only — the accumulated `or_data` is dropped,
exactly as the C code does. -/
def jaccardAvxGo (a b : List Nat) (ad od aa bb : Nat) : ℚ :=
  if h : 64 ≤ a.length ∧ 64 ≤ b.length then
    let acc := (List.range 8).foldl (avxLaneStep a b) (ad, od)
    jaccardAvxGo (a.drop 64) (b.drop 64) acc.1 acc.2 aa bb
  else if a.length ≠ 0 then
    jaccard_distance_default a b ad aa bb
  else
    jaccardFinish ad od
termination_by a.length
decreasing_by
  simp only [List.length_drop]
  omega

/-- `jaccard_distance_avx512_popcount` from `bitutils.cpp`. -/
def jaccard_distance_avx512_popcount (a b : List Nat) (ab aa bb : Nat) : ℚ :=
  jaccardAvxGo a b ab 0 aa bb

/-! Specification-side per-byte counts ("a single scalar pass over the whole
buffer", spec section 4.3). -/

/-- Total set bits of the bytewise XOR of two buffers. -/
def xorBitCount (a b : List Nat) : Nat :=
  (List.zipWith (fun x y => countBits 8 (x ^^^ y)) a b).sum

/-- Total set bits of the bytewise AND of two buffers. -/
def andBitCount (a b : List Nat) : Nat :=
  (List.zipWith (fun x y => countBits 8 (x &&& y)) a b).sum

/-- Total set bits of the bytewise OR of two buffers. -/
def orBitCount (a b : List Nat) : Nat :=
  (List.zipWith (fun x y => countBits 8 (x ||| y)) a b).sum

/-! ### Half-precision codec, from `src_cpp/halfutils.cpp`

`float_to_half_manual` is pure bit manipulation (the `memcpy` of the float
into `uint32_t` is the identity on the bit pattern), so it embeds directly
on the 32-bit pattern as a `Nat`.

`half_to_float_manual` returns a `float` *value*; every arithmetic step in
it is exact in IEEE single precision (`mantissa / 1024.0f` divides an
integer below 2^10 by a power of two; `1.0f + mantissa / 1024.0f` has at
most 11 significant bits; the product with `2^(exponent-15)` only moves
the exponent, staying inside the single-precision range for all half
inputs).  `half_to_float_bits` is therefore the bit pattern of that exact
result: sign/exponent/mantissa assembled per IEEE-754 single layout,
normalising the subnormal-branch value `mantissa / 1024` by its leading
bit, and `0x7FC00000` for `std::numeric_limits<float>::quiet_NaN()`. -/

/-- Floor of the base-2 logarithm, by fuel (enough fuel for all 16-bit
inputs); position of the leading bit of a half mantissa. -/
def log2fuel : Nat → Nat → Nat
  | 0, _ => 0
  | f + 1, n => if 2 ≤ n then log2fuel f (n / 2) + 1 else 0

/-- Bit pattern of the single-precision float returned by
`half_to_float_manual` (see the section comment: the C arithmetic is exact,
so the result is fully determined by the half's fields). -/
def half_to_float_bits (h : Nat) : Nat :=
  let sign := (h >>> 15) &&& 0x0001
  let exponent := (h >>> 10) &&& 0x001f
  let mantissa := h &&& 0x03ff
  if exponent = 0 then
    if mantissa = 0 then
      sign <<< 31
    else
      let p := log2fuel 16 mantissa
      (sign <<< 31) ||| ((117 + p) <<< 23) ||| ((mantissa - 2 ^ p) <<< (23 - p))
  else if exponent = 31 then
    if mantissa = 0 then
      (sign <<< 31) ||| (255 <<< 23)
    else
      0x7FC00000
  else
    (sign <<< 31) ||| ((exponent + 112) <<< 23) ||| (mantissa <<< 13)

/-- `float_to_half_manual` from `halfutils.cpp`, on the 32-bit pattern of
its argument.  `new_exponent` is a C `int32_t`, hence `Int` here. -/
def float_to_half_manual (bits : Nat) : Nat :=
  let sign := (bits >>> 31) &&& 0x1
  let exponent := (bits >>> 23) &&& 0xff
  let mantissa := bits &&& 0x7fffff
  if exponent = 255 then
    (sign <<< 15) ||| 0x7c00 ||| (if mantissa ≠ 0 then 1 else 0)
  else
    let new_exponent : Int := (exponent : Int) - 127 + 15
    if 31 ≤ new_exponent then
      (sign <<< 15) ||| 0x7c00
    else if new_exponent ≤ 0 then
      sign <<< 15
    else
      let nm0 := mantissa >>> 13
      if mantissa &&& 0x1000 ≠ 0 then
        if nm0 + 1 = 0x400 then
          if new_exponent + 1 = 31 then
            (sign <<< 15) ||| 0x7c00
          else
            (sign <<< 15) ||| ((new_exponent + 1).toNat <<< 10) ||| 0
        else
          (sign <<< 15) ||| (new_exponent.toNat <<< 10) ||| (nm0 + 1)
      else
        (sign <<< 15) ||| (new_exponent.toNat <<< 10) ||| nm0

/-- The encoder as the specification words it (section 4.5 Encode): source
exponent 255 keeps sign and a nonzero-mantissa flag; rebias by 112
(127 to 15); rebased exponent at least 31 (source exponent at least 143)
overflows to signed infinity; rebased exponent at most 0 (source exponent
at most 112) underflows to signed zero; otherwise truncate the mantissa to
10 bits rounding half-up on the discarded bit (bit 12), a carry out of the
10 bits incrementing the exponent with the infinity check repeated. -/
def float_to_half_spec (bits : Nat) : Nat :=
  let s := bits / 2 ^ 31 % 2
  let e := bits / 2 ^ 23 % 256
  let m := bits % 2 ^ 23
  if e = 255 then
    s * 2 ^ 15 + 31 * 2 ^ 10 + (if m ≠ 0 then 1 else 0)
  else if 143 ≤ e then
    s * 2 ^ 15 + 31 * 2 ^ 10
  else if e ≤ 112 then
    s * 2 ^ 15
  else
    let r := m / 2 ^ 13 + (if m / 2 ^ 12 % 2 = 1 then 1 else 0)
    if r = 2 ^ 10 then
      if e = 142 then
        s * 2 ^ 15 + 31 * 2 ^ 10
      else
        s * 2 ^ 15 + (e - 111) * 2 ^ 10
    else
      s * 2 ^ 15 + (e - 112) * 2 ^ 10 + r

/-! ### Half-vector kernels and dispatcher, from `src_cpp/halfutils.cpp`

Half operands are lists of 16-bit patterns (`List Nat`); a null pointer is
`Option.none`.  A thrown `std::invalid_argument` or `HalfutilsError` is the
`.error` branch of `Except`.  Accumulation is modelled exactly in `ℚ`:
every individual product / squared difference / absolute difference of
decoded half values is exactly representable in single precision, and a
single-precision sum of non-negative terms is zero exactly when every term
is zero, so zero tests on accumulated norms coincide with the C float
comparison for finite (non-infinity, non-NaN) half inputs.  The value
`cosine_similarity` divides, `dot/(sqrt(normA)*sqrt(normB))`, is determined
by the triple `(dot, normA, normB)`, which the embedding returns as the
kernel's payload. -/

/-- Errors thrown by the half-vector layer: `std::invalid_argument` for
caller-correctable arguments, `HalfutilsError` for calls before
initialization. -/
inductive KernelError where
  | invalidArgument (msg : String)
  | notInitialized (msg : String)
deriving DecidableEq

/-- `HALFVEC_MAX_DIM` from `halfutils.hpp`. -/
def HALFVEC_MAX_DIM : Nat := 16000

/-- `validate_dimensions` from `halfutils.hpp` (`dim` is a C `int`). -/
def validate_dimensions (dim : Int) : Option KernelError :=
  if dim ≤ 0 then
    some (.invalidArgument "Dimensions must be positive")
  else if (HALFVEC_MAX_DIM : Int) < dim then
    some (.invalidArgument "Dimensions exceed maximum allowed")
  else
    none

/-- Exact value of the float that `half_to_float_manual` returns on a
finite half pattern (exponent field below 31); the decode arithmetic is
exact in single precision, see the codec section comment. -/
def halfValQ (h : Nat) : ℚ :=
  let sign := (h >>> 15) &&& 0x0001
  let exponent := (h >>> 10) &&& 0x001f
  let mantissa := h &&& 0x03ff
  let mag : ℚ :=
    if exponent = 0 then (mantissa : ℚ) / 1024
    else (1 + (mantissa : ℚ) / 1024) * (2 : ℚ) ^ ((exponent : ℤ) - 15)
  if sign = 1 then -mag else mag

/-- A half pattern that decodes to a finite float (not infinity, not NaN);
on these the exact-`ℚ` accumulation model is faithful to the C float
semantics for zero tests. -/
def isFiniteHalf (h : Nat) : Prop := (h >>> 10) &&& 31 ≠ 31

instance isFiniteHalf_decidable (h : Nat) : Decidable (isFiniteHalf h) := by
  unfold isFiniteHalf
  infer_instance

/-- The argument prelude every kernel starts with:
`validate_dimensions(dim); if (ax == nullptr || bx == nullptr) throw ...`,
then the numeric body on the two operands. -/
def guarded {α : Type} (dim : Int) (ax bx : Option (List Nat))
    (body : List Nat → List Nat → Except KernelError α) : Except KernelError α :=
  match validate_dimensions dim with
  | some e => .error e
  | none =>
    match ax, bx with
    | some a, some b => body a b
    | _, _ => .error (.invalidArgument "Input arrays cannot be null")

/-- `l2_squared_distance_default`: validate, null-check, then
`distance += diff * diff` over the first `dim` elements. -/
def l2_squared_distance_default (dim : Int) (ax bx : Option (List Nat)) :
    Except KernelError ℚ :=
  guarded dim ax bx (fun a b =>
    .ok (((a.take dim.toNat).zip (b.take dim.toNat)).foldl
      (fun acc p => acc + (halfValQ p.1 - halfValQ p.2) * (halfValQ p.1 - halfValQ p.2)) 0))

/-- `inner_product_default`: validate, null-check, then `result += a * b`. -/
def inner_product_default (dim : Int) (ax bx : Option (List Nat)) :
    Except KernelError ℚ :=
  guarded dim ax bx (fun a b =>
    .ok (((a.take dim.toNat).zip (b.take dim.toNat)).foldl
      (fun acc p => acc + halfValQ p.1 * halfValQ p.2) 0))

/-- `cosine_similarity_default`: validate, null-check, accumulate
`dot_product`, `norm_a`, `norm_b` over the first `dim` elements, throw on a
zero norm, otherwise return the triple that determines
`dot/(sqrt(norm_a)*sqrt(norm_b))`. -/
def cosine_similarity_default (dim : Int) (ax bx : Option (List Nat)) :
    Except KernelError (ℚ × ℚ × ℚ) :=
  guarded dim ax bx (fun a b =>
    let dot := ((a.take dim.toNat).zip (b.take dim.toNat)).foldl
      (fun acc p => acc + halfValQ p.1 * halfValQ p.2) 0
    let na := (a.take dim.toNat).foldl (fun acc h => acc + halfValQ h * halfValQ h) 0
    let nb := (b.take dim.toNat).foldl (fun acc h => acc + halfValQ h * halfValQ h) 0
    if na = 0 ∨ nb = 0 then
      .error (.invalidArgument "Cannot compute cosine similarity of zero vectors")
    else
      .ok (dot, na, nb))

/-- `l1_distance_default`: validate, null-check, then
`distance += |a - b|`. -/
def l1_distance_default (dim : Int) (ax bx : Option (List Nat)) :
    Except KernelError ℚ :=
  guarded dim ax bx (fun a b =>
    .ok (((a.take dim.toNat).zip (b.take dim.toNat)).foldl
      (fun acc p => acc + |halfValQ p.1 - halfValQ p.2|) 0))

/-- The F16C block loop shape: eight elements per iteration (converted in
bulk and horizontally reduced — in exact arithmetic, the lane-pair
reduction written out), remainder per element. -/
def f16cPairs (term : Nat × Nat → ℚ) : List (Nat × Nat) → ℚ → ℚ
  | p1 :: p2 :: p3 :: p4 :: p5 :: p6 :: p7 :: p8 :: rest, acc =>
      f16cPairs term rest
        (acc + (((term p1 + term p5) + (term p2 + term p6))
          + ((term p3 + term p7) + (term p4 + term p8))))
  | rest, acc => rest.foldl (fun a p => a + term p) acc

/-- `l2_squared_distance_f16c`: same contract as the default kernel,
blocked eight elements at a time. -/
def l2_squared_distance_f16c (dim : Int) (ax bx : Option (List Nat)) :
    Except KernelError ℚ :=
  guarded dim ax bx (fun a b =>
    .ok (f16cPairs
      (fun p => (halfValQ p.1 - halfValQ p.2) * (halfValQ p.1 - halfValQ p.2))
      ((a.take dim.toNat).zip (b.take dim.toNat)) 0))

/-- `inner_product_f16c`. -/
def inner_product_f16c (dim : Int) (ax bx : Option (List Nat)) :
    Except KernelError ℚ :=
  guarded dim ax bx (fun a b =>
    .ok (f16cPairs (fun p => halfValQ p.1 * halfValQ p.2)
      ((a.take dim.toNat).zip (b.take dim.toNat)) 0))

/-- `cosine_similarity_f16c`: blocked accumulation of the three sums, the
same zero-norm check after the loop. -/
def cosine_similarity_f16c (dim : Int) (ax bx : Option (List Nat)) :
    Except KernelError (ℚ × ℚ × ℚ) :=
  guarded dim ax bx (fun a b =>
    let ps := (a.take dim.toNat).zip (b.take dim.toNat)
    let dot := f16cPairs (fun p => halfValQ p.1 * halfValQ p.2) ps 0
    let na := f16cPairs (fun p => halfValQ p.1 * halfValQ p.1) ps 0
    let nb := f16cPairs (fun p => halfValQ p.2 * halfValQ p.2) ps 0
    if na = 0 ∨ nb = 0 then
      .error (.invalidArgument "Cannot compute cosine similarity of zero vectors")
    else
      .ok (dot, na, nb))

/-- `l1_distance_f16c`. -/
def l1_distance_f16c (dim : Int) (ax bx : Option (List Nat)) :
    Except KernelError ℚ :=
  guarded dim ax bx (fun a b =>
    .ok (f16cPairs (fun p => |halfValQ p.1 - halfValQ p.2|)
      ((a.take dim.toNat).zip (b.take dim.toNat)) 0))

/-- Which implementation a dispatcher slot is bound to (the closed set of
variants of the function-pointer dispatch). -/
inductive KernelImpl where
  | dflt
  | f16c
deriving DecidableEq

/-- The static state of `HalfDistanceCalculator`: the `initialized_` flag,
the detected-F16C flag, and the four bound slots. -/
structure CalcState where
  initialized : Bool
  hasF16C : Bool
  l2Impl : KernelImpl
  ipImpl : KernelImpl
  cosImpl : KernelImpl
  l1Impl : KernelImpl
deriving DecidableEq

/-- `HalfDistanceCalculator::initialize()`: returns immediately when
already initialized; otherwise runs the detector (outcome abstracted as
`f16cDetected`, covering the `F16C_SUPPORT` build flag and the CPUID bit)
and binds all four slots accordingly. -/
def initializeCalc (f16cDetected : Bool) (s : CalcState) : CalcState :=
  if s.initialized then s
  else
    { initialized := true
      hasF16C := f16cDetected
      l2Impl := if f16cDetected then .f16c else .dflt
      ipImpl := if f16cDetected then .f16c else .dflt
      cosImpl := if f16cDetected then .f16c else .dflt
      l1Impl := if f16cDetected then .f16c else .dflt }

/-- The uninitialized-call error message from `halfutils.cpp`. -/
def notInitMsg : String := "Halfutils not initialized. Call initialize() first."

/-- Public entry `l2_squared_distance`: diagnose an uninitialized
dispatcher, otherwise forward to the bound implementation. -/
def l2_squared_distance (s : CalcState) (dim : Int) (ax bx : Option (List Nat)) :
    Except KernelError ℚ :=
  if ¬ s.initialized then .error (.notInitialized notInitMsg)
  else match s.l2Impl with
    | .dflt => l2_squared_distance_default dim ax bx
    | .f16c => l2_squared_distance_f16c dim ax bx

/-- Public entry `inner_product`. -/
def inner_product (s : CalcState) (dim : Int) (ax bx : Option (List Nat)) :
    Except KernelError ℚ :=
  if ¬ s.initialized then .error (.notInitialized notInitMsg)
  else match s.ipImpl with
    | .dflt => inner_product_default dim ax bx
    | .f16c => inner_product_f16c dim ax bx

/-- Public entry `cosine_similarity`. -/
def cosine_similarity (s : CalcState) (dim : Int) (ax bx : Option (List Nat)) :
    Except KernelError (ℚ × ℚ × ℚ) :=
  if ¬ s.initialized then .error (.notInitialized notInitMsg)
  else match s.cosImpl with
    | .dflt => cosine_similarity_default dim ax bx
    | .f16c => cosine_similarity_f16c dim ax bx

/-- Public entry `l1_distance`. -/
def l1_distance (s : CalcState) (dim : Int) (ax bx : Option (List Nat)) :
    Except KernelError ℚ :=
  if ¬ s.initialized then .error (.notInitialized notInitMsg)
  else match s.l1Impl with
    | .dflt => l1_distance_default dim ax bx
    | .f16c => l1_distance_f16c dim ax bx

/-- A result that is an `std::invalid_argument` failure. -/
def isInvalidArgument {α : Type} (r : Except KernelError α) : Prop :=
  ∃ msg, r = .error (.invalidArgument msg)

/-- Sum of per-element squares of the decoded half values: the exact value
of the single-precision `norm` accumulator. -/
def sqNormQ (l : List Nat) : ℚ := (l.map (fun h => halfValQ h * halfValQ h)).sum

/-- Sum of pairwise products of the decoded half values: the exact value of
the `dot_product` accumulator. -/
def dotQ (a b : List Nat) : ℚ := ((a.zip b).map (fun p => halfValQ p.1 * halfValQ p.2)).sum

theorem countBits_succ (w x : Nat) : countBits (w + 1) x = x % 2 + countBits w (x / 2) := rfl

theorem countBits_zero_arg (w : Nat) : countBits w 0 = 0 := by
  induction w with
  | zero => rfl
  | succ w ih => simp [countBits_succ, ih]

theorem countBits_width_succ (w x : Nat) (hx : x < 2 ^ w) :
    countBits w x = countBits (w + 1) x := by
  induction w generalizing x with
  | zero =>
    interval_cases x
    rfl
  | succ w ih =>
    have h2 : x / 2 < 2 ^ w := by
      have hp : 2 ^ (w + 1) = 2 ^ w * 2 := Nat.pow_succ 2 w
      omega
    rw [countBits_succ, countBits_succ, ih (x / 2) h2]

theorem test_countBits : countBits 8 255 = 8 := by decide

theorem bit_decomp_self (a : Nat) : Nat.bit (decide (a % 2 = 1)) (a / 2) = a := by
  rw [Nat.bit_val]
  have h2 : a % 2 = 0 ∨ a % 2 = 1 := Nat.mod_two_eq_zero_or_one a
  rcases h2 with h | h <;> simp [h] <;> omega

theorem bit_add_shift (c : Bool) (k m z : Nat) :
    Nat.bit c (m + 2 ^ k * z) = Nat.bit c m + 2 ^ (k + 1) * z := by
  rw [Nat.bit_val, Nat.bit_val, Nat.pow_succ]
  ring

/-- A bytewise-local binary operation (such as `&&&`, `|||`, `^^^`) applied to
two numbers split at bit position `k` acts independently on the two halves. -/
theorem bitop_split (g : Nat → Nat → Nat) (f : Bool → Bool → Bool)
    (hg0 : g 0 0 = 0)
    (hgbit : ∀ (i j : Bool) (a b : Nat), g (Nat.bit i a) (Nat.bit j b) = Nat.bit (f i j) (g a b)) :
    ∀ k a b x y, a < 2 ^ k → b < 2 ^ k →
      g (a + 2 ^ k * x) (b + 2 ^ k * y) = g a b + 2 ^ k * g x y := by
  intro k
  induction k with
  | zero =>
    intro a b x y ha hb
    interval_cases a
    interval_cases b
    simp [hg0]
  | succ k ih =>
    intro a b x y ha hb
    have hsp : 2 ^ (k + 1) = 2 ^ k * 2 := Nat.pow_succ 2 k
    have ha2 : a / 2 < 2 ^ k := by omega
    have hb2 : b / 2 < 2 ^ k := by omega
    have hA : a + 2 ^ (k + 1) * x = Nat.bit (decide (a % 2 = 1)) (a / 2 + 2 ^ k * x) := by
      rw [bit_add_shift, bit_decomp_self]
    have hB : b + 2 ^ (k + 1) * y = Nat.bit (decide (b % 2 = 1)) (b / 2 + 2 ^ k * y) := by
      rw [bit_add_shift, bit_decomp_self]
    rw [hA, hB, hgbit, ih _ _ x y ha2 hb2, bit_add_shift]
    congr 2
    rw [← hgbit, bit_decomp_self, bit_decomp_self]

theorem and_split (k a b x y : Nat) (ha : a < 2 ^ k) (hb : b < 2 ^ k) :
    (a + 2 ^ k * x) &&& (b + 2 ^ k * y) = (a &&& b) + 2 ^ k * (x &&& y) :=
  bitop_split (· &&& ·) (· && ·) rfl (fun i j a b => Nat.land_bit i a j b) k a b x y ha hb

theorem or_split (k a b x y : Nat) (ha : a < 2 ^ k) (hb : b < 2 ^ k) :
    (a + 2 ^ k * x) ||| (b + 2 ^ k * y) = (a ||| b) + 2 ^ k * (x ||| y) :=
  bitop_split (· ||| ·) (· || ·) rfl (fun i j a b => Nat.lor_bit i a j b) k a b x y ha hb

theorem xor_split (k a b x y : Nat) (ha : a < 2 ^ k) (hb : b < 2 ^ k) :
    (a + 2 ^ k * x) ^^^ (b + 2 ^ k * y) = (a ^^^ b) + 2 ^ k * (x ^^^ y) :=
  bitop_split (· ^^^ ·) bne rfl (fun i j a b => Nat.xor_bit i a j b) k a b x y ha hb

/-- Counting bits of a number split at bit position `k` is additive. -/
theorem countBits_split (k w a x : Nat) (ha : a < 2 ^ k) :
    countBits (k + w) (a + 2 ^ k * x) = countBits k a + countBits w x := by
  induction k generalizing a with
  | zero =>
    interval_cases a
    simp [countBits, Nat.zero_add]
  | succ k ih =>
    have hsp : 2 ^ (k + 1) = 2 ^ k * 2 := Nat.pow_succ 2 k
    have hxx : 2 ^ (k + 1) * x = 2 * (2 ^ k * x) := by rw [hsp]; ring
    have hmod : (a + 2 ^ (k + 1) * x) % 2 = a % 2 := by rw [hxx]; omega
    have hdiv : (a + 2 ^ (k + 1) * x) / 2 = a / 2 + 2 ^ k * x := by rw [hxx]; omega
    have hlt : a / 2 < 2 ^ k := by omega
    have harr : k + 1 + w = (k + w) + 1 := by omega
    rw [harr, countBits_succ, hmod, hdiv, ih (a / 2) hlt, countBits_succ]
    omega

/-- Clearing the lowest set bit with `x &&& (x - 1)` removes exactly one set
bit: the step invariant of Kernighan's loop. -/
theorem countBits_and_pred (w : Nat) : ∀ x, x < 2 ^ w → x ≠ 0 →
    countBits w (x &&& (x - 1)) + 1 = countBits w x := by
  induction w with
  | zero => intro x hx hx0; omega
  | succ w ih =>
    intro x hx hx0
    have hsp : 2 ^ (w + 1) = 2 ^ w * 2 := Nat.pow_succ 2 w
    rcases Nat.even_or_odd x with he | ho
    · -- even case: x = 2 * m with m ≠ 0
      obtain ⟨m, hm⟩ := he
      have hm2 : x = 2 * m := by omega
      have hm0 : m ≠ 0 := by omega
      have hpred : x - 1 = 2 * (m - 1) + 1 := by omega
      have hand : x &&& (x - 1) = 2 * (m &&& (m - 1)) := by
        rw [hpred, hm2]
        have h1 : (2 * m : Nat) = Nat.bit false m := by
          rw [Nat.bit_val]; simp
        have h2 : (2 * (m - 1) + 1 : Nat) = Nat.bit true (m - 1) := by
          rw [Nat.bit_val]; simp
        rw [h1, h2, Nat.land_bit, Nat.bit_val]
        simp
      rw [hand, hm2, countBits_succ, countBits_succ]
      have hq1 : 2 * (m &&& (m - 1)) % 2 = 0 := by omega
      have hq2 : 2 * (m &&& (m - 1)) / 2 = m &&& (m - 1) := by omega
      have hq3 : 2 * m % 2 = 0 := by omega
      have hq4 : 2 * m / 2 = m := by omega
      rw [hq1, hq2, hq3, hq4]
      have := ih m (by omega) hm0
      omega
    · -- odd case: x = 2 * m + 1, clearing the low bit gives 2 * m
      obtain ⟨m, hm⟩ := ho
      have hand : x &&& (x - 1) = 2 * m := by
        have h1 : x = Nat.bit true m := by
          rw [Nat.bit_val]; simp only [Bool.toNat_true]; omega
        have h2 : (x - 1 : Nat) = Nat.bit false m := by
          rw [Nat.bit_val]; simp only [Bool.toNat_false]; omega
        rw [h2, h1, Nat.land_bit, Nat.bit_val]
        simp
      rw [hand, hm, countBits_succ, countBits_succ]
      have hq1 : 2 * m % 2 = 0 := by omega
      have hq2 : 2 * m / 2 = m := by omega
      have hq3 : (2 * m + 1) % 2 = 1 := by omega
      have hq4 : (2 * m + 1) / 2 = m := by omega
      rw [hq1, hq2, hq3, hq4]
      omega

/-- `popcount_u64` computes the number of set bits of its argument. -/
theorem popcount_u64_eq_countBits (w : Nat) : ∀ x, x < 2 ^ w → popcount_u64 x = countBits w x := by
  intro x
  induction x using Nat.strong_induction_on with
  | _ x ihx =>
    intro hx
    rw [popcount_u64]
    by_cases h0 : x = 0
    · simp [h0, countBits_zero_arg]
    · simp only [h0, dite_false]
      have hlt : x &&& (x - 1) < x :=
        Nat.lt_of_le_of_lt Nat.and_le_right (Nat.sub_lt (Nat.pos_of_ne_zero h0) Nat.one_pos)
      rw [ihx _ hlt (lt_of_le_of_lt (le_of_lt hlt) hx)]
      exact countBits_and_pred w x hx h0

/-! Bridging lemmas: a `uint64_t`-chunked pass equals the per-byte pass. -/

theorem bytesToU64_nil : bytesToU64 [] = 0 := rfl

theorem bytesToU64_cons (x : Nat) (l : List Nat) :
    bytesToU64 (x :: l) = x + 2 ^ 8 * bytesToU64 l := rfl

theorem bytesToU64_lt (l : List Nat) (hl : ∀ x ∈ l, x < 256) :
    bytesToU64 l < 2 ^ (8 * l.length) := by
  induction l with
  | nil => simp [bytesToU64]
  | cons x xs ih =>
    rw [bytesToU64_cons]
    have hx : x < 256 := hl x (by simp)
    have ht : bytesToU64 xs < 2 ^ (8 * xs.length) := ih (fun y hy => hl y (by simp [hy]))
    have hlen : 8 * (x :: xs).length = 8 + 8 * xs.length := by
      simp [List.length_cons]
      ring
    rw [hlen, pow_add]
    have h8 : (2 : Nat) ^ 8 = 256 := by norm_num
    rw [h8]
    omega

theorem bytesToU64_op (g : Nat → Nat → Nat) (hg0 : g 0 0 = 0)
    (hsplit : ∀ a b x y, a < 2 ^ 8 → b < 2 ^ 8 →
      g (a + 2 ^ 8 * x) (b + 2 ^ 8 * y) = g a b + 2 ^ 8 * g x y) :
    ∀ l m : List Nat, l.length = m.length → (∀ x ∈ l, x < 256) → (∀ x ∈ m, x < 256) →
      g (bytesToU64 l) (bytesToU64 m) = bytesToU64 (List.zipWith g l m) := by
  intro l
  induction l with
  | nil =>
    intro m hm _ _
    have : m = [] := List.length_eq_zero.mp hm.symm
    subst this
    simpa [bytesToU64] using hg0
  | cons x xs ih =>
    intro m hm hl hr
    cases m with
    | nil => simp at hm
    | cons y ys =>
      have hx : x < 256 := hl x (by simp)
      have hy : y < 256 := hr y (by simp)
      rw [List.zipWith_cons_cons, bytesToU64_cons, bytesToU64_cons, bytesToU64_cons,
        hsplit x y _ _ (by norm_num [hx]) (by norm_num [hy]),
        ih ys (by simpa using hm) (fun z hz => hl z (by simp [hz]))
          (fun z hz => hr z (by simp [hz]))]

theorem countBits_bytesToU64 (l : List Nat) (hl : ∀ x ∈ l, x < 256) :
    countBits (8 * l.length) (bytesToU64 l) = (l.map (countBits 8)).sum := by
  induction l with
  | nil => simp [bytesToU64, countBits]
  | cons x xs ih =>
    have h8 : 8 * (x :: xs).length = 8 + 8 * xs.length := by
      simp [List.length_cons]
      ring
    rw [bytesToU64_cons, h8,
      countBits_split 8 (8 * xs.length) x (bytesToU64 xs) (by norm_num [hl x (by simp)]),
      ih (fun z hz => hl z (by simp [hz]))]
    simp

theorem zipWith_bytes_lt (g : Nat → Nat → Nat)
    (hbyte : ∀ a b, a < 256 → b < 256 → g a b < 256) :
    ∀ l m : List Nat, (∀ x ∈ l, x < 256) → (∀ x ∈ m, x < 256) →
      ∀ x ∈ List.zipWith g l m, x < 256 := by
  intro l
  induction l with
  | nil => intro m _ _ x hx; simp at hx
  | cons a as ih =>
    intro m hl hr x hx
    cases m with
    | nil => simp at hx
    | cons b bs =>
      rw [List.zipWith_cons_cons] at hx
      rcases List.mem_cons.mp hx with h | h
      · subst h
        exact hbyte a b (hl a (by simp)) (hr b (by simp))
      · exact ih bs (fun z hz => hl z (by simp [hz])) (fun z hz => hr z (by simp [hz])) x h

/-- Popcount of a bytewise-local operation applied to two packed words equals
the sum of the per-byte popcounts: the heart of the chunked-loop/per-byte-loop
equivalence. -/
theorem popcount_bytesToU64_op (g : Nat → Nat → Nat) (hg0 : g 0 0 = 0)
    (hsplit : ∀ a b x y, a < 2 ^ 8 → b < 2 ^ 8 →
      g (a + 2 ^ 8 * x) (b + 2 ^ 8 * y) = g a b + 2 ^ 8 * g x y)
    (hbyte : ∀ a b, a < 256 → b < 256 → g a b < 256)
    (l m : List Nat) (hlen : l.length = m.length)
    (hl : ∀ x ∈ l, x < 256) (hm : ∀ x ∈ m, x < 256) :
    popcount_u64 (g (bytesToU64 l) (bytesToU64 m))
      = (List.zipWith (fun x y => countBits 8 (g x y)) l m).sum := by
  rw [bytesToU64_op g hg0 hsplit l m hlen hl hm]
  have hz := zipWith_bytes_lt g hbyte l m hl hm
  rw [popcount_u64_eq_countBits (8 * (List.zipWith g l m).length) _ (bytesToU64_lt _ hz),
    countBits_bytesToU64 _ hz, List.map_zipWith]

theorem byte_lt_pow (x : Nat) (hx : x < 256) : x < 2 ^ 8 := by norm_num [hx]

theorem xor_byte_lt (x y : Nat) (hx : x < 256) (hy : y < 256) : x ^^^ y < 256 := by
  have := Nat.xor_lt_two_pow (byte_lt_pow x hx) (byte_lt_pow y hy)
  norm_num at this
  exact this

theorem or_byte_lt (x y : Nat) (hx : x < 256) (hy : y < 256) : x ||| y < 256 := by
  have := Nat.or_lt_two_pow (byte_lt_pow x hx) (byte_lt_pow y hy)
  norm_num at this
  exact this

theorem and_byte_lt (x y : Nat) (hx : x < 256) (hy : y < 256) : x &&& y < 256 :=
  lt_of_le_of_lt Nat.and_le_left hx

theorem popcount_chunk_xor (l m : List Nat) (hlen : l.length = m.length)
    (hl : ∀ x ∈ l, x < 256) (hm : ∀ x ∈ m, x < 256) :
    popcount_u64 (bytesToU64 l ^^^ bytesToU64 m) = xorBitCount l m :=
  popcount_bytesToU64_op (· ^^^ ·) rfl (fun a b x y ha hb => xor_split 8 a b x y ha hb)
    xor_byte_lt l m hlen hl hm

theorem popcount_chunk_and (l m : List Nat) (hlen : l.length = m.length)
    (hl : ∀ x ∈ l, x < 256) (hm : ∀ x ∈ m, x < 256) :
    popcount_u64 (bytesToU64 l &&& bytesToU64 m) = andBitCount l m :=
  popcount_bytesToU64_op (· &&& ·) rfl (fun a b x y ha hb => and_split 8 a b x y ha hb)
    and_byte_lt l m hlen hl hm

theorem popcount_chunk_or (l m : List Nat) (hlen : l.length = m.length)
    (hl : ∀ x ∈ l, x < 256) (hm : ∀ x ∈ m, x < 256) :
    popcount_u64 (bytesToU64 l ||| bytesToU64 m) = orBitCount l m :=
  popcount_bytesToU64_op (· ||| ·) rfl (fun a b x y ha hb => or_split 8 a b x y ha hb)
    or_byte_lt l m hlen hl hm

theorem xorBitCount_cons (x y : Nat) (xs ys : List Nat) :
    xorBitCount (x :: xs) (y :: ys) = countBits 8 (x ^^^ y) + xorBitCount xs ys := by
  simp [xorBitCount]

/-- The per-byte remainder loop adds exactly the bytewise XOR popcount. -/
theorem hammingTail_eq (a : List Nat) : ∀ b v, a.length = b.length →
    (∀ x ∈ a, x < 256) → (∀ x ∈ b, x < 256) → v < 2 ^ 64 →
    hammingTail a b v = (v + xorBitCount a b) % 2 ^ 64 := by
  induction a with
  | nil =>
    intro b v hb _ _ hv
    have hbn : b = [] := List.length_eq_zero.mp hb.symm
    subst hbn
    show v = (v + xorBitCount [] []) % 2 ^ 64
    simp [xorBitCount]
    omega
  | cons x xs ih =>
    intro b v hb hl hr hv
    cases b with
    | nil => simp at hb
    | cons y ys =>
      have hx : x < 256 := hl x (by simp)
      have hy : y < 256 := hr y (by simp)
      have hxy : x ^^^ y < 2 ^ 8 := byte_lt_pow _ (xor_byte_lt x y hx hy)
      show hammingTail xs ys ((v + popcount_u64 (x ^^^ y)) % 2 ^ 64) = _
      rw [popcount_u64_eq_countBits 8 _ hxy,
        ih ys _ (by simpa using hb) (fun z hz => hl z (by simp [hz]))
          (fun z hz => hr z (by simp [hz])) (Nat.mod_lt _ (by norm_num)),
        Nat.mod_add_mod, xorBitCount_cons, Nat.add_assoc]

theorem length_eight_heads (a0 a1 a2 a3 a4 a5 a6 a7 : Nat) :
    ([a0, a1, a2, a3, a4, a5, a6, a7] : List Nat).length = 8 := rfl

/-- `hamming_distance_default` equals seed plus the per-byte XOR popcount,
all in `uint64_t` arithmetic: chunked pass = per-byte pass. -/
theorem hamming_distance_default_eq (a b : List Nat) (v : Nat) :
    a.length = b.length → (∀ x ∈ a, x < 256) → (∀ x ∈ b, x < 256) → v < 2 ^ 64 →
    hamming_distance_default a b v = (v + xorBitCount a b) % 2 ^ 64 := by
  induction a, b, v using hamming_distance_default.induct with
  | case1 a0 a1 a2 a3 a4 a5 a6 a7 as b0 b1 b2 b3 b4 b5 b6 b7 bs v ih =>
    intro hlen hl hr hv
    have hl8 : ∀ x ∈ ([a0, a1, a2, a3, a4, a5, a6, a7] : List Nat), x < 256 := by
      intro x hx
      apply hl
      simp at hx
      rcases hx with h | h | h | h | h | h | h | h <;> simp [h]
    have hr8 : ∀ x ∈ ([b0, b1, b2, b3, b4, b5, b6, b7] : List Nat), x < 256 := by
      intro x hx
      apply hr
      simp at hx
      rcases hx with h | h | h | h | h | h | h | h <;> simp [h]
    have hls : ∀ x ∈ as, x < 256 := fun z hz => hl z (by simp [hz])
    have hrs : ∀ x ∈ bs, x < 256 := fun z hz => hr z (by simp [hz])
    have hlen2 : as.length = bs.length := by simpa using hlen
    show hamming_distance_default as bs _ = _
    rw [ih hlen2 hls hrs (Nat.mod_lt _ (by norm_num)), Nat.mod_add_mod,
      popcount_chunk_xor [a0, a1, a2, a3, a4, a5, a6, a7] [b0, b1, b2, b3, b4, b5, b6, b7]
        rfl hl8 hr8]
    have hsplit8 : xorBitCount (a0 :: a1 :: a2 :: a3 :: a4 :: a5 :: a6 :: a7 :: as)
        (b0 :: b1 :: b2 :: b3 :: b4 :: b5 :: b6 :: b7 :: bs)
        = xorBitCount [a0, a1, a2, a3, a4, a5, a6, a7] [b0, b1, b2, b3, b4, b5, b6, b7]
          + xorBitCount as bs := by
      simp [xorBitCount]
      ring
    rw [hsplit8, Nat.add_assoc]
  | case2 a b v h =>
    intro hlen hl hr hv
    have hun : hamming_distance_default a b v = hammingTail a b v := by
      rw [hamming_distance_default.eq_def]
      split
      next a0 a1 a2 a3 a4 a5 a6 a7 as b0 b1 b2 b3 b4 b5 b6 b7 bs =>
        exact (h a0 a1 a2 a3 a4 a5 a6 a7 as b0 b1 b2 b3 b4 b5 b6 b7 bs rfl rfl).elim
      next => rfl
    rw [hun]
    exact hammingTail_eq a b v hlen hl hr hv

theorem andBitCount_cons (x y : Nat) (xs ys : List Nat) :
    andBitCount (x :: xs) (y :: ys) = countBits 8 (x &&& y) + andBitCount xs ys := by
  simp [andBitCount]

theorem orBitCount_cons (x y : Nat) (xs ys : List Nat) :
    orBitCount (x :: xs) (y :: ys) = countBits 8 (x ||| y) + orBitCount xs ys := by
  simp [orBitCount]

theorem countBits_le (w : Nat) : ∀ x, countBits w x ≤ w := by
  induction w with
  | zero => intro x; simp [countBits]
  | succ w ih =>
    intro x
    rw [countBits_succ]
    have h1 : x % 2 ≤ 1 := by omega
    have h2 := ih (x / 2)
    omega

theorem orBitCount_le (a : List Nat) : ∀ b, orBitCount a b ≤ 8 * a.length := by
  induction a with
  | nil => intro b; simp [orBitCount]
  | cons x xs ih =>
    intro b
    cases b with
    | nil => simp [orBitCount]
    | cons y ys =>
      rw [orBitCount_cons]
      have h1 := countBits_le 8 (x ||| y)
      have h2 := ih ys
      simp only [List.length_cons]
      omega

/-- The per-byte remainder loop of the Jaccard kernel adds exactly the
bytewise AND and OR popcounts to the two accumulators. -/
theorem jaccardTail_eq (a : List Nat) : ∀ b ad od, a.length = b.length →
    (∀ x ∈ a, x < 256) → (∀ x ∈ b, x < 256) → ad < 2 ^ 64 → od < 2 ^ 64 →
    jaccardTail a b ad od = ((ad + andBitCount a b) % 2 ^ 64, (od + orBitCount a b) % 2 ^ 64) := by
  induction a with
  | nil =>
    intro b ad od hb _ _ had hod
    have hbn : b = [] := List.length_eq_zero.mp hb.symm
    subst hbn
    show (ad, od) = _
    simp [andBitCount, orBitCount]
    omega
  | cons x xs ih =>
    intro b ad od hb hl hr had hod
    cases b with
    | nil => simp at hb
    | cons y ys =>
      have hx : x < 256 := hl x (by simp)
      have hy : y < 256 := hr y (by simp)
      show jaccardTail xs ys _ _ = _
      rw [popcount_u64_eq_countBits 8 _ (byte_lt_pow _ (and_byte_lt x y hx hy)),
        popcount_u64_eq_countBits 8 _ (byte_lt_pow _ (or_byte_lt x y hx hy)),
        ih ys _ _ (by simpa using hb) (fun z hz => hl z (by simp [hz]))
          (fun z hz => hr z (by simp [hz])) (Nat.mod_lt _ (by norm_num))
          (Nat.mod_lt _ (by norm_num)),
        Nat.mod_add_mod, Nat.mod_add_mod, andBitCount_cons, orBitCount_cons,
        Nat.add_assoc, Nat.add_assoc]

/-- The full accumulation phase (chunked then per-byte) of the Jaccard
kernel equals the per-byte AND/OR popcounts. -/
theorem jaccardCounts_eq (a b : List Nat) (ad od : Nat) :
    a.length = b.length → (∀ x ∈ a, x < 256) → (∀ x ∈ b, x < 256) →
    ad < 2 ^ 64 → od < 2 ^ 64 →
    jaccardCounts a b ad od = ((ad + andBitCount a b) % 2 ^ 64, (od + orBitCount a b) % 2 ^ 64) := by
  induction a, b, ad, od using jaccardCounts.induct with
  | case1 a0 a1 a2 a3 a4 a5 a6 a7 as b0 b1 b2 b3 b4 b5 b6 b7 bs ad od ih =>
    intro hlen hl hr had hod
    have hl8 : ∀ x ∈ ([a0, a1, a2, a3, a4, a5, a6, a7] : List Nat), x < 256 := by
      intro x hx
      apply hl
      simp at hx
      rcases hx with h | h | h | h | h | h | h | h <;> simp [h]
    have hr8 : ∀ x ∈ ([b0, b1, b2, b3, b4, b5, b6, b7] : List Nat), x < 256 := by
      intro x hx
      apply hr
      simp at hx
      rcases hx with h | h | h | h | h | h | h | h <;> simp [h]
    have hls : ∀ x ∈ as, x < 256 := fun z hz => hl z (by simp [hz])
    have hrs : ∀ x ∈ bs, x < 256 := fun z hz => hr z (by simp [hz])
    have hlen2 : as.length = bs.length := by simpa using hlen
    show jaccardCounts as bs _ _ = _
    rw [ih hlen2 hls hrs (Nat.mod_lt _ (by norm_num)) (Nat.mod_lt _ (by norm_num)),
      Nat.mod_add_mod, Nat.mod_add_mod,
      popcount_chunk_and [a0, a1, a2, a3, a4, a5, a6, a7] [b0, b1, b2, b3, b4, b5, b6, b7]
        rfl hl8 hr8,
      popcount_chunk_or [a0, a1, a2, a3, a4, a5, a6, a7] [b0, b1, b2, b3, b4, b5, b6, b7]
        rfl hl8 hr8]
    have hsplitAnd : andBitCount (a0 :: a1 :: a2 :: a3 :: a4 :: a5 :: a6 :: a7 :: as)
        (b0 :: b1 :: b2 :: b3 :: b4 :: b5 :: b6 :: b7 :: bs)
        = andBitCount [a0, a1, a2, a3, a4, a5, a6, a7] [b0, b1, b2, b3, b4, b5, b6, b7]
          + andBitCount as bs := by
      simp [andBitCount]
      ring
    have hsplitOr : orBitCount (a0 :: a1 :: a2 :: a3 :: a4 :: a5 :: a6 :: a7 :: as)
        (b0 :: b1 :: b2 :: b3 :: b4 :: b5 :: b6 :: b7 :: bs)
        = orBitCount [a0, a1, a2, a3, a4, a5, a6, a7] [b0, b1, b2, b3, b4, b5, b6, b7]
          + orBitCount as bs := by
      simp [orBitCount]
      ring
    rw [hsplitAnd, hsplitOr, Nat.add_assoc, Nat.add_assoc]
  | case2 a b ad od h =>
    intro hlen hl hr had hod
    have hun : jaccardCounts a b ad od = jaccardTail a b ad od := by
      rw [jaccardCounts.eq_def]
      split
      next a0 a1 a2 a3 a4 a5 a6 a7 as b0 b1 b2 b3 b4 b5 b6 b7 bs =>
        exact (h a0 a1 a2 a3 a4 a5 a6 a7 as b0 b1 b2 b3 b4 b5 b6 b7 bs rfl rfl).elim
      next => rfl
    rw [hun]
    exact jaccardTail_eq a b ad od hlen hl hr had hod

/-- The scalar Jaccard kernel in closed form: the C code computes the seeded
AND count and the OR count per byte and finishes with
`1 - and_data / or_data` (result `0` when the OR count is zero). -/
theorem jaccard_default_formula (a b : List Nat) (ab aa bb : Nat)
    (hlen : a.length = b.length) (ha : ∀ x ∈ a, x < 256) (hb : ∀ x ∈ b, x < 256)
    (hlen32 : a.length < 2 ^ 32) (hab : ab < 2 ^ 64) :
    jaccard_distance_default a b ab aa bb
      = jaccardFinish ((ab + andBitCount a b) % 2 ^ 64) (orBitCount a b) := by
  show jaccardFinish (jaccardCounts a b ab 0).1 (jaccardCounts a b ab 0).2 = _
  rw [jaccardCounts_eq a b ab 0 hlen ha hb hab (by norm_num)]
  have hor : orBitCount a b < 2 ^ 64 := by
    have h1 := orBitCount_le a b
    have h2 : (8 : Nat) * a.length < 8 * 2 ^ 32 := by omega
    have h3 : (8 : Nat) * 2 ^ 32 < 2 ^ 64 := by norm_num
    omega
  simp only [Nat.zero_add, Nat.mod_eq_of_lt hor]

theorem orBitCount_all_zero (a : List Nat) : ∀ b, (∀ x ∈ a, x = 0) → (∀ x ∈ b, x = 0) →
    orBitCount a b = 0 := by
  induction a with
  | nil => intro b _ _; simp [orBitCount]
  | cons x xs ih =>
    intro b hz hw
    cases b with
    | nil => simp [orBitCount]
    | cons y ys =>
      rw [orBitCount_cons]
      have hx : x = 0 := hz x (by simp)
      have hy : y = 0 := hw y (by simp)
      subst hx
      subst hy
      simp [countBits_zero_arg,
        ih ys (fun z hiz => hz z (by simp [hiz])) (fun z hiz => hw z (by simp [hiz]))]

/-! ### Claims about the scalar bit-vector kernels -/

/-- **C3.** For every byte count, every pair of byte buffers of that length
and every seed, the scalar `hamming_distance_default` returns seed plus the
total number of set bits in the bytewise XOR of the buffers, in the
kernel's `uint64_t` arithmetic; whenever that total fits the word (as it
does for every real call, the count being bounded by `8 * byteCount`), the
result is the exact integer `seed + popcount(a XOR b)`: the 8-byte-chunked
loop followed by the per-byte remainder loop equals a pure per-byte pass. -/
theorem hamming_default_counts_bytewise_xor (a b : List Nat) (seed : Nat)
    (hlen : a.length = b.length) (ha : ∀ x ∈ a, x < 256) (hb : ∀ x ∈ b, x < 256)
    (hseed : seed < 2 ^ 64) :
    hamming_distance_default a b seed = (seed + xorBitCount a b) % 2 ^ 64
      ∧ (seed + xorBitCount a b < 2 ^ 64 →
          hamming_distance_default a b seed = seed + xorBitCount a b) := by
  have h := hamming_distance_default_eq a b seed hlen ha hb hseed
  exact ⟨h, fun hlt => h.trans (Nat.mod_eq_of_lt hlt)⟩

/-- Witness for C3: a 9-byte pair (one full chunk plus one remainder byte). -/
theorem hamming_default_counts_bytewise_xor_witness :
    hamming_distance_default [15, 240, 1, 2, 3, 4, 5, 6, 255] (List.replicate 9 0) 5 = 30 := by
  have h := (hamming_default_counts_bytewise_xor [15, 240, 1, 2, 3, 4, 5, 6, 255]
    (List.replicate 9 0) 5 (by decide) (by decide) (by decide) (by decide)).2 (by decide)
  rw [h]
  decide

/-- **C4.** The scalar `jaccard_distance_default` computes
`andCount = andSeed + popcount(a AND b)` and `orCount = popcount(a OR b)`
per byte and returns `1 - andCount / orCount`, with result exactly `0` when
`orCount = 0`; for two all-zero buffers the result is exactly `0`; with
byte count `0` the Jaccard result is `0` while `hamming_distance_default`
returns exactly its seed. -/
theorem jaccard_default_formula_and_edge_cases (a b : List Nat) (ab aa bb : Nat)
    (hlen : a.length = b.length) (ha : ∀ x ∈ a, x < 256) (hb : ∀ x ∈ b, x < 256)
    (hlen32 : a.length < 2 ^ 32) (hnw : ab + andBitCount a b < 2 ^ 64) :
    (jaccard_distance_default a b ab aa bb
        = if orBitCount a b = 0 then 0
          else 1 - ((ab + andBitCount a b : Nat) : ℚ) / ((orBitCount a b : Nat) : ℚ))
      ∧ ((∀ x ∈ a, x = 0) → (∀ x ∈ b, x = 0) → jaccard_distance_default a b ab aa bb = 0)
      ∧ (∀ s : Nat, jaccard_distance_default [] [] s aa bb = 0)
      ∧ (∀ s : Nat, hamming_distance_default [] [] s = s) := by
  have hmain := jaccard_default_formula a b ab aa bb hlen ha hb hlen32 (by omega)
  rw [Nat.mod_eq_of_lt hnw] at hmain
  refine ⟨hmain, ?_, ?_, ?_⟩
  · intro hza hzb
    rw [hmain]
    unfold jaccardFinish
    rw [if_pos (orBitCount_all_zero a b hza hzb)]
  · intro s
    rfl
  · intro s
    rfl

/-- Witness for C4: buffers `[3, 5]` and `[6, 5]` with AND seed `1` give
AND count `1 + 3 = 4`, OR count `5`, hence distance `1 - 4/5 = 1/5`. -/
theorem jaccard_default_formula_witness :
    jaccard_distance_default [3, 5] [6, 5] 1 7 9 = 1 / 5 := by
  have h := (jaccard_default_formula_and_edge_cases [3, 5] [6, 5] 1 7 9
    (by decide) (by decide) (by decide) (by decide) (by decide)).1
  rw [h, (by decide : orBitCount [3, 5] [6, 5] = 5), (by decide : andBitCount [3, 5] [6, 5] = 3)]
  norm_num

/-- **C8.** The scalar `jaccard_distance_default` never reads its `aa` and
`bb` (`normA`/`normB`) parameters: any two choices give the same result. -/
theorem jaccard_default_independent_of_norms (a b : List Nat) (ab aa bb aa2 bb2 : Nat) :
    jaccard_distance_default a b ab aa bb = jaccard_distance_default a b ab aa2 bb2 := rfl

theorem popcount_u64_allones : popcount_u64 18446744073709551615 = 64 := by
  rw [popcount_u64_eq_countBits 64 _ (by norm_num)]
  decide

theorem replicate65_bytes : ∀ x ∈ List.replicate 65 (255 : Nat), x < 256 := by
  intro x hx
  rw [List.eq_of_mem_replicate hx]
  norm_num

/-- **C1.** The claim fails on the code: with 65 bytes of `0xFF` in both
buffers (`byteCount ≥ 64` and not a multiple of 64), the scalar kernel
returns `1 - 520/520 = 0`, while `jaccard_distance_avx512_popcount` hands
the one remainder byte to the scalar kernel seeding only `and_data = 512`
and dropping the accumulated `or_data = 512`, so it finishes with
`1 - 520/8 = -64`.  The AND count is carried into the remainder path, the
OR count is not. -/
theorem avx512_jaccard_diverges_from_scalar :
    jaccard_distance_default (List.replicate 65 255) (List.replicate 65 255) 0 0 0 = 0
      ∧ jaccard_distance_avx512_popcount (List.replicate 65 255) (List.replicate 65 255) 0 0 0
          = -64 := by
  have hpcF := popcount_u64_allones
  constructor
  · have h := jaccard_default_formula (List.replicate 65 255) (List.replicate 65 255) 0 0 0
      rfl replicate65_bytes replicate65_bytes (by simp) (by norm_num)
    rw [h, (by decide : andBitCount (List.replicate 65 255) (List.replicate 65 255) = 520),
      (by decide : orBitCount (List.replicate 65 255) (List.replicate 65 255) = 520)]
    unfold jaccardFinish
    norm_num
  · show jaccardAvxGo (List.replicate 65 255) (List.replicate 65 255) 0 0 0 0 = -64
    have hlanes : ∀ i, i < 8 →
        lane64 (List.replicate 65 255) i = 18446744073709551615 := by decide
    have hstep : ∀ (p : Nat × Nat) (i : Nat), i < 8 →
        avxLaneStep (List.replicate 65 255) (List.replicate 65 255) p i
          = ((p.1 + 64) % 2 ^ 64, (p.2 + 64) % 2 ^ 64) := by
      intro p i hi
      unfold avxLaneStep
      rw [hlanes i hi, Nat.and_self, Nat.or_self, hpcF]
    rw [jaccardAvxGo]
    rw [dif_pos (by simp : 64 ≤ (List.replicate 65 (255 : Nat)).length
        ∧ 64 ≤ (List.replicate 65 (255 : Nat)).length)]
    rw [(by decide : List.range 8 = [0, 1, 2, 3, 4, 5, 6, 7])]
    rw [List.foldl_cons, hstep _ 0 (by norm_num)]
    rw [List.foldl_cons, hstep _ 1 (by norm_num)]
    rw [List.foldl_cons, hstep _ 2 (by norm_num)]
    rw [List.foldl_cons, hstep _ 3 (by norm_num)]
    rw [List.foldl_cons, hstep _ 4 (by norm_num)]
    rw [List.foldl_cons, hstep _ 5 (by norm_num)]
    rw [List.foldl_cons, hstep _ 6 (by norm_num)]
    rw [List.foldl_cons, hstep _ 7 (by norm_num)]
    rw [List.foldl_nil]
    rw [(by decide : (List.replicate 65 (255 : Nat)).drop 64 = [255])]
    norm_num
    rw [jaccardAvxGo]
    rw [dif_neg (by simp)]
    rw [if_pos (by simp)]
    have h := jaccard_default_formula [255] [255] 512 0 0 rfl
      (by intro x hx; simp at hx; simp [hx]) (by intro x hx; simp at hx; simp [hx])
      (by simp) (by norm_num)
    rw [h, (by decide : andBitCount [255] [255] = 8), (by decide : orBitCount [255] [255] = 8)]
    unfold jaccardFinish
    norm_num

/-! Mask and assembly lemmas for the codec proofs. -/

theorem and_mask1 (n : Nat) : n &&& 1 = n % 2 := Nat.and_one_is_mod n

theorem and_mask5 (n : Nat) : n &&& 31 = n % 32 := by
  have h := Nat.and_pow_two_sub_one_eq_mod n 5
  norm_num at h
  exact h

theorem and_mask8 (n : Nat) : n &&& 255 = n % 256 := by
  have h := Nat.and_pow_two_sub_one_eq_mod n 8
  norm_num at h
  exact h

theorem and_mask10 (n : Nat) : n &&& 1023 = n % 1024 := by
  have h := Nat.and_pow_two_sub_one_eq_mod n 10
  norm_num at h
  exact h

theorem and_mask23 (n : Nat) : n &&& 8388607 = n % 2 ^ 23 := by
  have h := Nat.and_pow_two_sub_one_eq_mod n 23
  norm_num at h
  norm_num [h]

theorem and_bit12 (n : Nat) : (n &&& 4096 ≠ 0) ↔ n / 2 ^ 12 % 2 = 1 := by
  have h : n &&& 2 ^ 12 = (n.testBit 12).toNat * 2 ^ 12 := Nat.and_two_pow n 12
  norm_num at h
  rw [h, Nat.testBit_to_div_mod]
  rcases Nat.mod_two_eq_zero_or_one (n / 2 ^ 12) with h2 | h2 <;> simp [h2]

theorem pow_mul_lor (k x y : Nat) : (2 ^ k * x) ||| (2 ^ k * y) = 2 ^ k * (x ||| y) := by
  have h := or_split k 0 0 x y (Nat.pos_pow_of_pos k (by norm_num)) (Nat.pos_pow_of_pos k (by norm_num))
  simpa using h

theorem lor_low (k x u : Nat) (hu : u < 2 ^ k) : (2 ^ k * x) ||| u = 2 ^ k * x + u := by
  have h := or_split k 0 u x 0 (Nat.pos_pow_of_pos k (by norm_num)) hu
  simp only [Nat.zero_add, Nat.mul_zero, Nat.add_zero, Nat.zero_or, Nat.or_zero] at h
  omega

theorem assemble16 (s t m : Nat) (ht : t < 32) (hm : m < 1024) :
    (s <<< 15) ||| (t * 1024) ||| m = s * 32768 + t * 1024 + m := by
  rw [Nat.shiftLeft_eq]
  have h1 : s * 2 ^ 15 = 2 ^ 10 * (32 * s) := by ring
  have h2 : t * 1024 = 2 ^ 10 * t := by ring
  have h3 : (32 : Nat) * s = 2 ^ 5 * s := by ring
  rw [h1, h2, pow_mul_lor, h3, lor_low 5 s t ht, lor_low 10 _ m hm]
  ring

theorem assemble16two (s t : Nat) (ht : t < 32) :
    (s <<< 15) ||| (t * 1024) = s * 32768 + t * 1024 := by
  have h := assemble16 s t 0 ht (by norm_num)
  simpa using h

theorem assemble32 (s E V : Nat) (hE : E < 256) (hV : V < 2 ^ 23) :
    (s <<< 31) ||| (E <<< 23) ||| V = s * 2 ^ 31 + E * 2 ^ 23 + V := by
  rw [Nat.shiftLeft_eq, Nat.shiftLeft_eq]
  have h1 : s * 2 ^ 31 = 2 ^ 23 * (256 * s) := by ring
  have h2 : E * 2 ^ 23 = 2 ^ 23 * E := by ring
  have h3 : (256 : Nat) * s = 2 ^ 8 * s := by ring
  rw [h1, h2, pow_mul_lor, h3, lor_low 8 s E hE, lor_low 23 _ V hV]
  ring

theorem assembleh (s t m : Nat) (ht : t < 32) (hm : m < 1024) :
    (s <<< 15) ||| (t <<< 10) ||| m = s * 2 ^ 15 + t * 2 ^ 10 + m := by
  have h := assemble16 s t m ht hm
  rw [(by decide : (1024 : Nat) = 2 ^ 10)] at h
  rw [(by rw [Nat.shiftLeft_eq] : t <<< 10 = t * 2 ^ 10), h]
  norm_num

theorem assembleh2 (s t : Nat) (ht : t < 32) :
    (s <<< 15) ||| (t <<< 10) = s * 2 ^ 15 + t * 2 ^ 10 := by
  have h := assembleh s t 0 ht (by norm_num)
  simpa using h

theorem assembleinf (s : Nat) : (s <<< 15) ||| 31744 = s * 2 ^ 15 + 31 * 2 ^ 10 := by
  have h := assembleh2 s 31 (by norm_num)
  rw [(by decide : (31 : Nat) <<< 10 = 31744)] at h
  exact h

theorem assembleinfflag (s c : Nat) (hc : c < 1024) :
    (s <<< 15) ||| 31744 ||| c = s * 2 ^ 15 + 31 * 2 ^ 10 + c := by
  have h := assembleh s 31 c (by norm_num) hc
  rw [(by decide : (31 : Nat) <<< 10 = 31744)] at h
  exact h

/-- The manual float-to-half encoder follows the specification's encode
description exactly, for every 32-bit pattern. -/
theorem float_to_half_manual_eq_spec (bits : Nat) :
    float_to_half_manual bits = float_to_half_spec bits := by
  simp only [float_to_half_manual, float_to_half_spec, Nat.shiftRight_eq_div_pow,
    and_mask1, and_mask8, and_mask23, and_bit12]
  have hs : bits / 2 ^ 31 % 2 < 2 := Nat.mod_lt _ (by norm_num)
  have he : bits / 2 ^ 23 % 256 < 256 := Nat.mod_lt _ (by norm_num)
  have hm : bits % 2 ^ 23 < 2 ^ 23 := Nat.mod_lt _ (by norm_num)
  set s := bits / 2 ^ 31 % 2 with hs_def
  set e := bits / 2 ^ 23 % 256 with he_def
  set m := bits % 2 ^ 23 with hm_def
  by_cases h255 : e = 255
  · rw [if_pos h255, if_pos h255]
    by_cases hm0 : m = 0
    · simp only [hm0, ne_eq, not_true_eq_false, if_false, ite_false]
      rw [Nat.or_zero, assembleinf]
      omega
    · simp only [ne_eq, hm0, not_false_eq_true, if_true, ite_true]
      rw [assembleinfflag s 1 (by norm_num)]
  · rw [if_neg h255, if_neg h255]
    by_cases h143 : 143 ≤ e
    · rw [if_pos (by omega : (31 : Int) ≤ (e : Int) - 127 + 15), if_pos h143, assembleinf]
    · rw [if_neg (by omega : ¬ (31 : Int) ≤ (e : Int) - 127 + 15), if_neg h143]
      by_cases h112 : e ≤ 112
      · rw [if_pos (by omega : ((e : Int) - 127 + 15) ≤ 0), if_pos h112, Nat.shiftLeft_eq]
      · rw [if_neg (by omega : ¬ ((e : Int) - 127 + 15) ≤ 0), if_neg h112]
        have hd13 : m / 2 ^ 13 < 1024 := by omega
        by_cases hround : m / 2 ^ 12 % 2 = 1
        · rw [if_pos hround, if_pos hround]
          by_cases hcarry : m / 2 ^ 13 + 1 = 1024
          · rw [if_pos hcarry, if_pos (by omega : m / 2 ^ 13 + 1 = 2 ^ 10)]
            by_cases h142 : e = 142
            · rw [if_pos (by omega : (e : Int) - 127 + 15 + 1 = 31), if_pos h142, assembleinf]
            · rw [if_neg (by omega : ¬ ((e : Int) - 127 + 15 + 1 = 31)), if_neg h142,
                Nat.or_zero,
                (by omega : ((e : Int) - 127 + 15 + 1).toNat = e - 111),
                assembleh2 s (e - 111) (by omega)]
          · rw [if_neg hcarry, if_neg (by omega : ¬ (m / 2 ^ 13 + 1 = 2 ^ 10)),
              (by omega : ((e : Int) - 127 + 15).toNat = e - 112),
              assembleh s (e - 112) (m / 2 ^ 13 + 1) (by omega) (by omega)]
        · rw [if_neg hround, if_neg hround,
            if_neg (by omega : ¬ (m / 2 ^ 13 + 0 = 2 ^ 10)),
            (by omega : ((e : Int) - 127 + 15).toNat = e - 112),
            assembleh s (e - 112) (m / 2 ^ 13) (by omega) (by omega)]
          omega

theorem assemble32two (s E : Nat) (hE : E < 256) :
    (s <<< 31) ||| (E <<< 23) = s * 2 ^ 31 + E * 2 ^ 23 := by
  have h := assemble32 s E 0 hE (by norm_num)
  simpa using h

/-- Decoding a signed-zero half gives the matching signed-zero float. -/
theorem half_to_float_bits_zero (s : Nat) (hs : s < 2) :
    half_to_float_bits (s * 32768) = s * 2 ^ 31 := by
  simp only [half_to_float_bits, Nat.shiftRight_eq_div_pow, and_mask1, and_mask5, and_mask10]
  rw [if_pos (by omega : s * 32768 / 2 ^ 10 % 32 = 0), if_pos (by omega : s * 32768 % 1024 = 0),
    (by omega : s * 32768 / 2 ^ 15 % 2 = s), Nat.shiftLeft_eq]

/-- Decoding a signed-infinity half gives the matching signed-infinity float. -/
theorem half_to_float_bits_inf (s : Nat) (hs : s < 2) :
    half_to_float_bits (s * 32768 + 31744) = s * 2 ^ 31 + 255 * 2 ^ 23 := by
  simp only [half_to_float_bits, Nat.shiftRight_eq_div_pow, and_mask1, and_mask5, and_mask10]
  rw [if_neg (by omega : ¬ (s * 32768 + 31744) / 2 ^ 10 % 32 = 0),
    if_pos (by omega : (s * 32768 + 31744) / 2 ^ 10 % 32 = 31),
    if_pos (by omega : (s * 32768 + 31744) % 1024 = 0),
    (by omega : (s * 32768 + 31744) / 2 ^ 15 % 2 = s),
    assemble32two s 255 (by norm_num)]

/-- Decoding a normal half gives the exact normal float with exponent
rebased by 112 and mantissa widened by 13 bits. -/
theorem half_to_float_bits_normal (s e m : Nat) (hs : s < 2) (he1 : 1 ≤ e) (he2 : e ≤ 30)
    (hm : m < 1024) :
    half_to_float_bits (s * 32768 + e * 1024 + m)
      = s * 2 ^ 31 + (e + 112) * 2 ^ 23 + m * 2 ^ 13 := by
  simp only [half_to_float_bits, Nat.shiftRight_eq_div_pow, and_mask1, and_mask5, and_mask10]
  rw [if_neg (by omega : ¬ (s * 32768 + e * 1024 + m) / 2 ^ 10 % 32 = 0),
    if_neg (by omega : ¬ (s * 32768 + e * 1024 + m) / 2 ^ 10 % 32 = 31),
    (by omega : (s * 32768 + e * 1024 + m) / 2 ^ 15 % 2 = s),
    (by omega : (s * 32768 + e * 1024 + m) / 2 ^ 10 % 32 = e),
    (by omega : (s * 32768 + e * 1024 + m) % 1024 = m)]
  have hV : m <<< 13 = m * 2 ^ 13 := Nat.shiftLeft_eq m 13
  rw [hV, assemble32 s (e + 112) (m * 2 ^ 13) (by omega) (by omega)]

theorem float_to_half_spec_zero_pattern (s : Nat) (hs : s < 2) :
    float_to_half_spec (s * 2 ^ 31) = s * 32768 := by
  simp only [float_to_half_spec]
  rw [(by omega : s * 2 ^ 31 / 2 ^ 31 % 2 = s),
    (by omega : s * 2 ^ 31 / 2 ^ 23 % 256 = 0),
    if_neg (by norm_num), if_neg (by norm_num), if_pos (by norm_num)]
  omega

theorem float_to_half_spec_inf_pattern (s : Nat) (hs : s < 2) :
    float_to_half_spec (s * 2 ^ 31 + 255 * 2 ^ 23) = s * 32768 + 31744 := by
  simp only [float_to_half_spec]
  rw [(by omega : (s * 2 ^ 31 + 255 * 2 ^ 23) / 2 ^ 31 % 2 = s),
    (by omega : (s * 2 ^ 31 + 255 * 2 ^ 23) / 2 ^ 23 % 256 = 255),
    (by omega : (s * 2 ^ 31 + 255 * 2 ^ 23) % 2 ^ 23 = 0),
    if_pos rfl]
  simp only [ne_eq, not_true_eq_false, if_false, ite_false]
  omega

theorem float_to_half_spec_normal_pattern (s e m : Nat) (hs : s < 2) (he1 : 1 ≤ e)
    (he2 : e ≤ 30) (hm : m < 1024) :
    float_to_half_spec (s * 2 ^ 31 + (e + 112) * 2 ^ 23 + m * 2 ^ 13)
      = s * 32768 + e * 1024 + m := by
  simp only [float_to_half_spec]
  rw [(by omega : (s * 2 ^ 31 + (e + 112) * 2 ^ 23 + m * 2 ^ 13) / 2 ^ 31 % 2 = s),
    (by omega : (s * 2 ^ 31 + (e + 112) * 2 ^ 23 + m * 2 ^ 13) / 2 ^ 23 % 256 = e + 112),
    (by omega : (s * 2 ^ 31 + (e + 112) * 2 ^ 23 + m * 2 ^ 13) % 2 ^ 23 = m * 2 ^ 13),
    if_neg (by omega), if_neg (by omega), if_neg (by omega),
    (by omega : m * 2 ^ 13 / 2 ^ 13 = m), (by omega : m * 2 ^ 13 / 2 ^ 12 % 2 = 0),
    if_neg (by norm_num : ¬ ((0 : Nat) = 1)), if_neg (by omega : ¬ (m + 0 = 2 ^ 10))]
  omega

/-- **C2.** (amended) Encoding after decoding is the identity on every half
pattern that is a signed zero, a signed infinity, or a normal number; the
claim's inclusion of subnormals and NaNs fails (see the counterexample:
decode maps subnormal `h` to `mantissa/1024`, a normal float, which
re-encodes as a normal half; NaN decodes to the fixed quiet NaN pattern). -/
theorem half_roundtrip_except_subnormal_nan (h : Nat) (hh : h < 65536)
    (hsub : h / 1024 % 32 = 0 → h % 1024 = 0)
    (hnan : h / 1024 % 32 = 31 → h % 1024 = 0) :
    float_to_half_manual (half_to_float_bits h) = h := by
  have hs : h / 32768 < 2 := by omega
  by_cases he0 : h / 1024 % 32 = 0
  · have hm0 := hsub he0
    have hdec : h = h / 32768 * 32768 := by omega
    rw [hdec, half_to_float_bits_zero _ hs, float_to_half_manual_eq_spec,
      float_to_half_spec_zero_pattern _ hs]
  · by_cases he31 : h / 1024 % 32 = 31
    · have hm0 := hnan he31
      have hdec : h = h / 32768 * 32768 + 31744 := by omega
      rw [hdec, half_to_float_bits_inf _ hs, float_to_half_manual_eq_spec,
        float_to_half_spec_inf_pattern _ hs]
    · have hdec : h = h / 32768 * 32768 + h / 1024 % 32 * 1024 + h % 1024 := by omega
      rw [hdec, half_to_float_bits_normal _ _ _ hs (by omega) (by omega) (by omega),
        float_to_half_manual_eq_spec,
        float_to_half_spec_normal_pattern _ _ _ hs (by omega) (by omega) (by omega)]

/-- **C2 counterexample.** The subnormal half `0x0001` (which the claim
includes) does not survive the round trip: it decodes to `1/1024`, a
*normal* float, which re-encodes as the normal half `0x1400`. -/
theorem half_roundtrip_fails_on_subnormal :
    float_to_half_manual (half_to_float_bits 1) = 5120 ∧ (5120 : Nat) ≠ 1 :=
  ⟨by decide, by decide⟩

/-- Witness for C2: the normal half `0x3C51` round-trips to itself. -/
theorem half_roundtrip_witness :
    float_to_half_manual (half_to_float_bits 15441) = 15441 :=
  half_roundtrip_except_subnormal_nan 15441 (by norm_num) (by norm_num) (by norm_num)

/-- **C7.** The manual float-to-half encoder implements the claimed
algorithm: source exponent 255 yields sign, `0x7c00` and a nonzero-mantissa
flag; otherwise the exponent is rebiased from 127 to 15, a rebased exponent
of 31 or more yields signed infinity, a rebased exponent of 0 or less yields
signed zero, and otherwise the 23-bit mantissa is truncated to 10 bits with
round-half-up on the discarded bit, a carry incrementing the exponent with
the overflow-to-infinity recheck. -/
theorem float_to_half_manual_implements_spec (bits : Nat) :
    float_to_half_manual bits = float_to_half_spec bits :=
  float_to_half_manual_eq_spec bits

/-- Witness for C7: the pattern of `1.5f` (`0x3FC00000`) encodes to the
half pattern of `1.5` (`0x3E00`), on both sides. -/
theorem float_to_half_manual_implements_spec_witness :
    float_to_half_manual 1069547520 = 15872 ∧ float_to_half_spec 1069547520 = 15872 :=
  ⟨(float_to_half_manual_implements_spec 1069547520).trans (by decide), by decide⟩

/-- **C10.** Kernighan's loop in `popcount_u64` terminates because each
iteration `x &&& (x - 1)` strictly decreases the number of set bits (which
also justifies the recursion in the embedding), and it returns the number
of set bits of the original input, for every 64-bit value. -/
theorem popcount_u64_terminates_and_counts (x : Nat) (hx : x < 2 ^ 64) :
    popcount_u64 x = countBits 64 x
      ∧ (x ≠ 0 → countBits 64 (x &&& (x - 1)) < countBits 64 x) := by
  refine ⟨popcount_u64_eq_countBits 64 x hx, fun h0 => ?_⟩
  have h := countBits_and_pred 64 x hx h0
  omega

/-- Witness for C10 at `x = 2024`. -/
theorem popcount_u64_terminates_and_counts_witness :
    popcount_u64 2024 = countBits 64 2024
      ∧ (2024 ≠ 0 → countBits 64 (2024 &&& (2024 - 1)) < countBits 64 2024) :=
  popcount_u64_terminates_and_counts 2024 (by norm_num)

theorem validate_dimensions_only_invalid (dim : Int) (e : KernelError)
    (h : validate_dimensions dim = some e) : ∃ m, e = KernelError.invalidArgument m := by
  unfold validate_dimensions at h
  split_ifs at h with h1 h2
  · exact ⟨_, (Option.some.inj h).symm⟩
  · exact ⟨_, (Option.some.inj h).symm⟩

/-- Bad dimension or null operand short-circuits the shared prelude with an
`std::invalid_argument`, before the numeric body runs. -/
theorem guarded_invalid {α : Type} (dim : Int) (ax bx : Option (List Nat))
    (body : List Nat → List Nat → Except KernelError α)
    (hbad : dim ≤ 0 ∨ 16000 < dim ∨ ax = none ∨ bx = none) :
    isInvalidArgument (guarded dim ax bx body) := by
  by_cases hd0 : dim ≤ 0
  · exact ⟨"Dimensions must be positive", by simp [guarded, validate_dimensions, hd0]⟩
  · by_cases h16 : 16000 < dim
    · refine ⟨"Dimensions exceed maximum allowed", ?_⟩
      have hval : validate_dimensions dim
          = some (.invalidArgument "Dimensions exceed maximum allowed") := by
        unfold validate_dimensions
        rw [if_neg hd0, if_pos (by unfold HALFVEC_MAX_DIM; omega)]
      simp [guarded, hval]
    · have hval : validate_dimensions dim = none := by
        unfold validate_dimensions
        rw [if_neg hd0, if_neg (by unfold HALFVEC_MAX_DIM; omega)]
      have hnull : ax = none ∨ bx = none := by tauto
      refine ⟨"Input arrays cannot be null", ?_⟩
      rcases hnull with h | h
      · subst h
        cases bx <;> simp [guarded, hval]
      · subst h
        cases ax <;> simp [guarded, hval]

/-- **C5.** Each of the four half-vector kernels — the scalar defaults and
the F16C variants alike — fails with `std::invalid_argument` for every
non-positive `dim`, every `dim` above 16000, and every null operand; the
failure comes from the shared prelude, before any per-element loop, so no
partial result is produced (structurally: the `Except` short-circuits the
numeric body). -/
theorem half_kernels_reject_invalid_arguments (dim : Int) (ax bx : Option (List Nat))
    (hbad : dim ≤ 0 ∨ 16000 < dim ∨ ax = none ∨ bx = none) :
    isInvalidArgument (l2_squared_distance_default dim ax bx)
      ∧ isInvalidArgument (inner_product_default dim ax bx)
      ∧ isInvalidArgument (cosine_similarity_default dim ax bx)
      ∧ isInvalidArgument (l1_distance_default dim ax bx)
      ∧ isInvalidArgument (l2_squared_distance_f16c dim ax bx)
      ∧ isInvalidArgument (inner_product_f16c dim ax bx)
      ∧ isInvalidArgument (cosine_similarity_f16c dim ax bx)
      ∧ isInvalidArgument (l1_distance_f16c dim ax bx) :=
  ⟨guarded_invalid dim ax bx _ hbad, guarded_invalid dim ax bx _ hbad,
   guarded_invalid dim ax bx _ hbad, guarded_invalid dim ax bx _ hbad,
   guarded_invalid dim ax bx _ hbad, guarded_invalid dim ax bx _ hbad,
   guarded_invalid dim ax bx _ hbad, guarded_invalid dim ax bx _ hbad⟩

/-- Witness for C5 at `dim = 0` with non-null operands. -/
theorem half_kernels_reject_invalid_arguments_witness :
    isInvalidArgument (l2_squared_distance_default 0 (some []) (some []))
      ∧ isInvalidArgument (inner_product_default 0 (some []) (some []))
      ∧ isInvalidArgument (cosine_similarity_default 0 (some []) (some []))
      ∧ isInvalidArgument (l1_distance_default 0 (some []) (some []))
      ∧ isInvalidArgument (l2_squared_distance_f16c 0 (some []) (some []))
      ∧ isInvalidArgument (inner_product_f16c 0 (some []) (some []))
      ∧ isInvalidArgument (cosine_similarity_f16c 0 (some []) (some []))
      ∧ isInvalidArgument (l1_distance_f16c 0 (some []) (some [])) :=
  half_kernels_reject_invalid_arguments 0 (some []) (some [])
    (Or.inl (by norm_num))

theorem foldl_add_map {α : Type} (f : α → ℚ) (l : List α) : ∀ c : ℚ,
    l.foldl (fun acc x => acc + f x) c = c + (l.map f).sum := by
  induction l with
  | nil => intro c; simp
  | cons x xs ih =>
    intro c
    simp only [List.foldl_cons, List.map_cons, List.sum_cons, ih (c + f x)]
    ring

theorem halfValQ_zero_pattern : halfValQ 0 = 0 := by
  simp [halfValQ]

theorem sqNormQ_all_zero (l : List Nat) (hz : ∀ x ∈ l, x = 0) : sqNormQ l = 0 := by
  induction l with
  | nil => simp [sqNormQ]
  | cons x xs ih =>
    have hx : x = 0 := hz x (by simp)
    subst hx
    simp only [sqNormQ, List.map_cons, List.sum_cons, halfValQ_zero_pattern, mul_zero, zero_add]
    exact ih (fun z hiz => hz z (by simp [hiz]))

/-- **C6.** For valid dimensions and non-null operands of the stated
length, `cosine_similarity_default` fails with the zero-vector
`std::invalid_argument` exactly when the accumulated squared norm of `a`
or of `b` is zero — in particular when an operand is all zero — and
otherwise returns (the data determining) `dot/(sqrt(normA)*sqrt(normB))`,
never an error and never a silent 0: the payload `(dot, normA, normB)` has
both norms nonzero.  (For finite half inputs the exact accumulation is
zero precisely when the C float accumulation compares equal to `0.0f`.) -/
theorem cosine_zero_norm_error_iff (dim : Int) (a b : List Nat)
    (hd1 : 1 ≤ dim) (hd2 : dim ≤ 16000)
    (hla : a.length = dim.toNat) (hlb : b.length = dim.toNat)
    (hfa : ∀ x ∈ a, isFiniteHalf x) (hfb : ∀ x ∈ b, isFiniteHalf x) :
    (cosine_similarity_default dim (some a) (some b)
        = .error (.invalidArgument "Cannot compute cosine similarity of zero vectors")
      ↔ (sqNormQ a = 0 ∨ sqNormQ b = 0))
      ∧ ((∀ x ∈ a, x = 0) → cosine_similarity_default dim (some a) (some b)
          = .error (.invalidArgument "Cannot compute cosine similarity of zero vectors"))
      ∧ (sqNormQ a ≠ 0 → sqNormQ b ≠ 0 →
          cosine_similarity_default dim (some a) (some b)
            = .ok (dotQ a b, sqNormQ a, sqNormQ b)) := by
  have hval : validate_dimensions dim = none := by
    unfold validate_dimensions
    rw [if_neg (by omega), if_neg (by unfold HALFVEC_MAX_DIM; omega)]
  have hta : a.take dim.toNat = a := by rw [← hla]; exact List.take_length a
  have htb : b.take dim.toNat = b := by rw [← hlb]; exact List.take_length b
  have hred : cosine_similarity_default dim (some a) (some b)
      = if sqNormQ a = 0 ∨ sqNormQ b = 0 then
          .error (.invalidArgument "Cannot compute cosine similarity of zero vectors")
        else .ok (dotQ a b, sqNormQ a, sqNormQ b) := by
    simp only [cosine_similarity_default, guarded, hval, hta, htb, foldl_add_map,
      zero_add, sqNormQ, dotQ]
  refine ⟨?_, ?_, ?_⟩
  · rw [hred]
    by_cases hz : sqNormQ a = 0 ∨ sqNormQ b = 0 <;> simp [hz]
  · intro hza
    rw [hred, if_pos (Or.inl (sqNormQ_all_zero a hza))]
  · intro h1 h2
    rw [hred, if_neg (by tauto)]

/-- Witness for C6: `dim = 2`, `a = [0x3C00, 0]` (the half `1.0` and a
zero), `b = [0, 0x3C00]`: both norms are `1`, the dot product `0`. -/
theorem cosine_zero_norm_error_iff_witness :
    cosine_similarity_default 2 (some [15360, 0]) (some [0, 15360])
      = .ok (dotQ [15360, 0] [0, 15360], sqNormQ [15360, 0], sqNormQ [0, 15360]) := by
  have hone : halfValQ 15360 = 1 := by
    unfold halfValQ
    rw [Nat.shiftRight_eq_div_pow, Nat.shiftRight_eq_div_pow, and_mask1, and_mask5, and_mask10]
    norm_num
  have hA : sqNormQ [15360, 0] ≠ 0 := by
    simp [sqNormQ, hone, halfValQ_zero_pattern]
  have hB : sqNormQ [0, 15360] ≠ 0 := by
    simp [sqNormQ, hone, halfValQ_zero_pattern]
  exact (cosine_zero_norm_error_iff 2 [15360, 0] [0, 15360] (by norm_num) (by norm_num)
    (by decide) (by decide) (by decide) (by decide)).2.2 hA hB

/-- **C9.** Before initialization every public kernel entry point returns
the initialization-error condition rather than computing a number; and once
`initialize` has run, a further `initialize` call — whatever the detector
would report the second time — leaves the chosen bindings unchanged. -/
theorem dispatcher_diagnoses_uninitialized_and_is_idempotent
    (s : CalcState) (dim : Int) (ax bx : Option (List Nat)) (hw hw2 : Bool)
    (huninit : s.initialized = false) :
    l2_squared_distance s dim ax bx = .error (.notInitialized notInitMsg)
      ∧ inner_product s dim ax bx = .error (.notInitialized notInitMsg)
      ∧ cosine_similarity s dim ax bx = .error (.notInitialized notInitMsg)
      ∧ l1_distance s dim ax bx = .error (.notInitialized notInitMsg)
      ∧ initializeCalc hw2 (initializeCalc hw s) = initializeCalc hw s := by
  refine ⟨?_, ?_, ?_, ?_, ?_⟩
  · simp [l2_squared_distance, huninit]
  · simp [inner_product, huninit]
  · simp [cosine_similarity, huninit]
  · simp [l1_distance, huninit]
  · by_cases h : s.initialized <;> simp [initializeCalc, h]

/-- Witness for C9: a fresh state, `dim = 3`, null operands, detector
reporting F16C on the first call and not on the second. -/
theorem dispatcher_diagnoses_uninitialized_witness :
    l2_squared_distance ⟨false, false, .dflt, .dflt, .dflt, .dflt⟩ 3 none none
        = .error (.notInitialized notInitMsg)
      ∧ inner_product ⟨false, false, .dflt, .dflt, .dflt, .dflt⟩ 3 none none
        = .error (.notInitialized notInitMsg)
      ∧ cosine_similarity ⟨false, false, .dflt, .dflt, .dflt, .dflt⟩ 3 none none
        = .error (.notInitialized notInitMsg)
      ∧ l1_distance ⟨false, false, .dflt, .dflt, .dflt, .dflt⟩ 3 none none
        = .error (.notInitialized notInitMsg)
      ∧ initializeCalc false (initializeCalc true ⟨false, false, .dflt, .dflt, .dflt, .dflt⟩)
        = initializeCalc true ⟨false, false, .dflt, .dflt, .dflt, .dflt⟩ :=
  dispatcher_diagnoses_uninitialized_and_is_idempotent
    ⟨false, false, .dflt, .dflt, .dflt, .dflt⟩ 3 none none true false rfl

end PgVectorCpp
